import Mathlib

/-!
Verification of the logsdb parsing/normalization and report-composition
layer against its natural-language specification.  Python source functions
are shallowly embedded as executable Lean definitions; machine strings are
modelled as `List Char` (Python `str` is a sequence of code points) and raw
bytes as `Fin 256`.
-/

namespace Logsdb

/-! ## Byte-level codecs (src/logsdb/apache_access.py, `reencode`)

`reencode(s) = s.encode("iso-8859-1").decode("utf-8")`.  ISO-8859-1 maps
every byte `b` to code point `b` when decoding and maps code points below
256 back to the identical byte when encoding (failing on anything above).
`utf8Decode` models Python's strict UTF-8 decoder: it rejects overlong
forms, surrogates, code points above `0x10FFFF`, stray continuation bytes
and truncated sequences, exactly as `bytes.decode("utf-8")` does. -/

/-- Is this byte a UTF-8 continuation byte (`0x80`–`0xBF`)? -/
def isCont (b : Fin 256) : Bool := 0x80 ≤ b.val && b.val ≤ 0xBF

/-- Strict UTF-8 decoder from bytes to code points, modelling Python's
`bytes.decode("utf-8")` (errors return `none`). -/
def utf8Decode : List (Fin 256) → Option (List Nat)
  | [] => some []
  | b :: rest =>
    if b.val < 0x80 then
      (utf8Decode rest).map (b.val :: ·)
    else if 0xC2 ≤ b.val && b.val ≤ 0xDF then
      match rest with
      | c1 :: rest1 =>
        if isCont c1 then
          (utf8Decode rest1).map (((b.val - 0xC0) * 0x40 + (c1.val - 0x80)) :: ·)
        else none
      | [] => none
    else if 0xE0 ≤ b.val && b.val ≤ 0xEF then
      match rest with
      | c1 :: c2 :: rest2 =>
        let lo1 : Nat := if b.val = 0xE0 then 0xA0 else 0x80
        let hi1 : Nat := if b.val = 0xED then 0x9F else 0xBF
        if lo1 ≤ c1.val && c1.val ≤ hi1 && isCont c2 then
          (utf8Decode rest2).map
            (((b.val - 0xE0) * 0x1000 + (c1.val - 0x80) * 0x40 + (c2.val - 0x80)) :: ·)
        else none
      | _ => none
    else if 0xF0 ≤ b.val && b.val ≤ 0xF4 then
      match rest with
      | c1 :: c2 :: c3 :: rest3 =>
        let lo1 : Nat := if b.val = 0xF0 then 0x90 else 0x80
        let hi1 : Nat := if b.val = 0xF4 then 0x8F else 0xBF
        if lo1 ≤ c1.val && c1.val ≤ hi1 && isCont c2 && isCont c3 then
          (utf8Decode rest3).map
            (((b.val - 0xF0) * 0x40000 + (c1.val - 0x80) * 0x1000 +
              (c2.val - 0x80) * 0x40 + (c3.val - 0x80)) :: ·)
        else none
      | _ => none
    else none

/-- Decode bytes as the single-byte codepage ISO-8859-1: every byte `b`
becomes code point `b` (`bytes.decode("iso-8859-1")` never fails). -/
def latin1Decode (b : List (Fin 256)) : List Nat := b.map Fin.val

/-- Encode code points as ISO-8859-1: code points below 256 map to the
identical byte; anything else raises (`none`), as `str.encode("iso-8859-1")`. -/
def latin1Encode : List Nat → Option (List (Fin 256))
  | [] => some []
  | c :: rest =>
    if h : c < 256 then (latin1Encode rest).map ((⟨c, h⟩ : Fin 256) :: ·) else none

/-- `reencode` from `apache_access.py`: re-encode the string as ISO-8859-1
bytes, then decode those bytes as UTF-8. -/
def reencode (s : List Nat) : Option (List Nat) :=
  (latin1Encode s).bind utf8Decode

/-! ## Access-log line parsing (src/logsdb/apache_access.py, `main`) -/

/-- Split a list at the first occurrence of `sep`: the part before and the
part after, or `none` if `sep` does not occur. -/
def breakAtSep (sep : Char) : List Char → Option (List Char × List Char)
  | [] => none
  | c :: rest =>
    if c = sep then some ([], rest)
    else (breakAtSep sep rest).map (fun p => (c :: p.1, p.2))

/-- Python `str.split(sep, maxsplit)` for a one-character separator: at
most `maxsplit` splits are performed, the remainder (further separators
included) stays together as the final field. -/
def pySplit (sep : Char) : List Char → Nat → List (List Char)
  | s, 0 => [s]
  | s, m + 1 =>
    match breakAtSep sep s with
    | none => [s]
    | some (pre, post) => pre :: pySplit sep post m

/-- Skip the whitespace `ast.literal_eval` ignores around tokens. -/
def skipSp (s : List Char) : List Char :=
  s.dropWhile (fun c => c = ' ' || c = '\t' || c = '\r' || c = '\n')

/-- Scan the body of a double-quoted string literal up to its closing
quote.  Escapes and raw newlines are rejected; the Apache log format only
emits escape-free literals. -/
def scanQ : List Char → Option (List Char × List Char)
  | [] => none
  | c :: rest =>
    if c = '"' then some ([], rest)
    else if c = '\\' || c = '\n' then none
    else (scanQ rest).map (fun p => (c :: p.1, p.2))

/-- After one complete string literal: repeatedly expect `, "<string>"`,
then a closing `]` followed only by trailing whitespace. -/
def parseMore : Nat → List (List Char) → List Char → Option (List (List Char))
  | 0, _, _ => none
  | fuel + 1, acc, s =>
    match skipSp s with
    | ']' :: tail => if skipSp tail = [] then some acc.reverse else none
    | ',' :: tail =>
      match skipSp tail with
      | '"' :: body =>
        match scanQ body with
        | some (lit, rest) => parseMore fuel (lit :: acc) rest
        | none => none
      | _ => none
    | _ => none

/-- Model of `ast.literal_eval` restricted to what the access-log pipeline
feeds it: a bracketed array of double-quoted, escape-free string literals
as produced by the Apache log format (`["%u", "%r", ...]`).  Any other
shape makes `literal_eval` (or the 7-way unpacking that follows) raise,
i.e. `none`. -/
def literalEvalStrList (s : List Char) : Option (List (List Char)) :=
  match skipSp s with
  | '[' :: rest =>
    match skipSp rest with
    | ']' :: tail => if skipSp tail = [] then some [] else none
    | '"' :: body =>
      match scanQ body with
      | some (lit, rest1) => parseMore (rest1.length + 1) [lit] rest1
      | none => none
    | _ => none
  | _ => none

/-- The whitespace Python's `int(str)` strips from both ends. -/
def pyIntSpace (c : Char) : Bool :=
  c = ' ' || c = '\t' || c = '\r' || c = '\n' || c = '\x0b' || c = '\x0c'

/-- Value of a run of decimal digits. -/
def digitsVal (ds : List Char) : Nat :=
  ds.foldl (fun a c => a * 10 + (c.toNat - '0'.toNat)) 0

/-- Model of Python `int(str)` on plain ASCII decimal text: optional
surrounding whitespace, optional sign, one or more digits; anything else
raises `ValueError`, i.e. `none`. -/
def pyInt? (s : List Char) : Option Int :=
  let t := ((s.dropWhile pyIntSpace).reverse.dropWhile pyIntSpace).reverse
  match t with
  | '-' :: ds =>
    if !ds.isEmpty && ds.all Char.isDigit then some (-(digitsVal ds : Int)) else none
  | '+' :: ds =>
    if !ds.isEmpty && ds.all Char.isDigit then some (digitsVal ds) else none
  | ds =>
    if !ds.isEmpty && ds.all Char.isDigit then some (digitsVal ds) else none

/-- One parsed access-log event: the tuple of values `main` passes to
`insert_entry`.  Timestamp, host and source address are inserted as the
raw field text; the 7 reencoded strings are code-point sequences. -/
structure AccessEntry where
  timestamp : List Char
  host : List Char
  port : Int
  src_addr : List Char
  bytesin : Int
  bytesout : Int
  microsecs : Int
  status : Int
  authuser : List Nat
  reqline : List Nat
  method : List Nat
  path : List Nat
  protocol : List Nat
  referer : List Nat
  user_agent : List Nat
deriving DecidableEq

/-- Parsing once the line has been split into pipe fields: the 9-way
unpacking, the 7-element array-literal unpacking, `reencode` over the 7
strings and the integer conversions; any failure raises, i.e. `none`. -/
def accessFromFields : List (List Char) → Option AccessEntry
  | [ts, host, port, src, bin, bout, micro, status, strs] =>
    match literalEvalStrList strs with
    | some [au, rq, me, pa, pr, rf, ua] => do
      let au2 ← reencode (au.map Char.toNat)
      let rq2 ← reencode (rq.map Char.toNat)
      let me2 ← reencode (me.map Char.toNat)
      let pa2 ← reencode (pa.map Char.toNat)
      let pr2 ← reencode (pr.map Char.toNat)
      let rf2 ← reencode (rf.map Char.toNat)
      let ua2 ← reencode (ua.map Char.toNat)
      let portN ← pyInt? port
      let binN ← pyInt? bin
      let boutN ← pyInt? bout
      let microN ← pyInt? micro
      let statusN ← pyInt? status
      some ⟨ts, host, portN, src, binN, boutN, microN, statusN,
            au2, rq2, me2, pa2, pr2, rf2, ua2⟩
    | _ => none
  | _ => none

/-- The per-line work of `apache_access.main`: split on `|` with at most 8
splits, then unpack and convert the fields. -/
def parseAccessLine (line : List Char) : Option AccessEntry :=
  accessFromFields (pySplit '|' line 8)

/-- Number of pipe-delimited fields of a raw line: one more than the
number of `|` characters it contains. -/
def numPipeFields (line : List Char) : Nat := line.count '|' + 1

/-- A raw line with 10 pipe-delimited fields (the last pipe sits inside a
string of the 9th field's array literal). -/
def c2line : List Char :=
  "t|h|80|1.2.3.4|10|20|30|200|[\"u\", \"r\", \"m\", \"p\", \"v\", \"f\", \"a|b\"]".data

/-! ## Auth-failure line parsing (src/logsdb/authfail.py)

The two members of `MSG_REGEXEN` use only literal runs, the classes `\S`,
`\d`, `\s`, `.`, greedy `(...)?`, greedy `+`/`*` over a class, lazy
`+?`/`*?` over a class, alternation and named groups.  The matcher below
implements exactly the backtracking search order of CPython's `re` engine
for those constructs, so its first success is the match (with captures)
Python reports. -/

/-- Character classes occurring in `MSG_REGEXEN`, with Python semantics on
the ASCII text sshd emits. -/
inductive CharCls where
  | nonspace
  | digit
  | space
  | dot
deriving DecidableEq

/-- Python regex whitespace (`\s`), ASCII range. -/
def pySpaceChar (c : Char) : Bool :=
  c = ' ' || c = '\t' || c = '\n' || c = '\r' || c = '\x0b' || c = '\x0c'

/-- Does a character match a class?  `.` matches everything except a
newline (`re.DOTALL` is not set). -/
def CharCls.matches : CharCls → Char → Bool
  | .nonspace, c => !pySpaceChar c
  | .digit, c => c.isDigit
  | .space, c => pySpaceChar c
  | .dot, c => c != '\n'

/-- Regex abstract syntax for the fragments used by `MSG_REGEXEN`. -/
inductive RE where
  | str (w : List Char)
  | cls (p : CharCls)
  | cat (a b : RE)
  | alt (a b : RE)
  | opt (a : RE)
  | starG (p : CharCls)
  | plusG (p : CharCls)
  | plusL (p : CharCls)
  | starL (p : CharCls)
  | group (n : Nat) (a : RE)

/-- Captured groups: association list from group number to matched text
(most recent first). -/
abbrev Caps := List (Nat × List Char)

/-- Drop the literal `w` from the head of `s`, or fail. -/
def dropPre : List Char → List Char → Option (List Char)
  | [], s => some s
  | _ :: _, [] => none
  | c :: w, d :: s => if c = d then dropPre w s else none

/-- Length of the longest run of `p`-characters at the head of `s`. -/
def leadRun (p : Char → Bool) : List Char → Nat
  | [] => 0
  | c :: rest => if p c then leadRun p rest + 1 else 0

/-- First success of `f` over a list of candidate consumption counts. -/
def firstSome (f : Nat → Option Caps) : List Nat → Option Caps
  | [] => none
  | n :: ns => (f n).orElse (fun _ => firstSome f ns)

/-- The list `[lo, lo+1, ..., lo+n-1]`. -/
def upRange : Nat → Nat → List Nat
  | _, 0 => []
  | lo, n + 1 => lo :: upRange (lo + 1) n

/-- The list `[n, n-1, ..., 1]`. -/
def downRange1 : Nat → List Nat
  | 0 => []
  | n + 1 => (n + 1) :: downRange1 n

/-- The list `[n, n-1, ..., 0]`. -/
def downRange0 : Nat → List Nat
  | 0 => [0]
  | n + 1 => (n + 1) :: downRange0 n

/-- Backtracking matcher in continuation style, following CPython's `re`
search order: alternatives left to right, a greedy option tries the
present branch first, greedy `+`/`*` try the longest run first, lazy
`+?`/`*?` try the shortest first, and `group` records the consumed text. -/
def matchR : RE → List Char → Caps → (List Char → Caps → Option Caps) → Option Caps
  | .str w, s, caps, k =>
    match dropPre w s with
    | some rest => k rest caps
    | none => none
  | .cls p, s, caps, k =>
    match s with
    | [] => none
    | c :: rest => if p.matches c then k rest caps else none
  | .cat a b, s, caps, k => matchR a s caps (fun s1 c1 => matchR b s1 c1 k)
  | .alt a b, s, caps, k => (matchR a s caps k).orElse (fun _ => matchR b s caps k)
  | .opt a, s, caps, k => (matchR a s caps k).orElse (fun _ => k s caps)
  | .starG p, s, caps, k =>
    firstSome (fun n => k (s.drop n) caps) (downRange0 (leadRun p.matches s))
  | .plusG p, s, caps, k =>
    firstSome (fun n => k (s.drop n) caps) (downRange1 (leadRun p.matches s))
  | .plusL p, s, caps, k =>
    firstSome (fun n => k (s.drop n) caps) (upRange 1 (leadRun p.matches s))
  | .starL p, s, caps, k =>
    firstSome (fun n => k (s.drop n) caps) (upRange 0 (leadRun p.matches s + 1))
  | .group n a, s, caps, k =>
    matchR a s caps (fun s1 c1 => k s1 ((n, s.take (s.length - s1.length)) :: c1))

/-- `re.fullmatch`: the pattern must consume the entire line. -/
def fullmatch (re : RE) (line : List Char) : Option Caps :=
  matchR re line [] (fun rest caps => if rest.isEmpty then some caps else none)

/-- Shorthand for a literal regex fragment. -/
def lit (s : String) : RE := .str s.data

/-- The optional `(?: message repeated \d+ times: \[)?` body. -/
def repeatedPart : RE :=
  .cat (lit " message repeated ") (.cat (.plusG .digit) (lit " times: ["))

/-- The alternation `(?:password|keyboard-interactive/pam|none)`. -/
def failedKind : RE :=
  .alt (lit "password") (.alt (lit "keyboard-interactive/pam") (lit "none"))

/-- `MSG_REGEXEN[0]`; groups: 0 = timestamp, 1 = username, 2 = src_addr. -/
def authPat1 : RE :=
  .cat (.group 0 (.plusG .nonspace)) <| .cat (lit " ") <| .cat (.plusG .nonspace) <|
  .cat (lit " sshd[") <| .cat (.plusG .digit) <| .cat (lit "]:") <|
  .cat (.opt repeatedPart) <| .cat (lit " Failed ") <| .cat failedKind <|
  .cat (lit " for ") <| .cat (.opt (lit "invalid user ")) <|
  .cat (.group 1 (.plusL .dot)) <| .cat (lit " from ") <|
  .cat (.group 2 (.plusG .nonspace)) <| .cat (lit " port ") <|
  .cat (.plusG .digit) <| .cat (lit " ssh2") <| .cat (.opt (lit "]")) (.starG .space)

/-- `MSG_REGEXEN[1]`; groups: 0 = timestamp, 1 = username, 2 = src_addr. -/
def authPat2 : RE :=
  .cat (.group 0 (.plusG .nonspace)) <| .cat (lit " ") <| .cat (.plusG .nonspace) <|
  .cat (lit " sshd[") <| .cat (.plusG .digit) <| .cat (lit "]:") <|
  .cat (.opt repeatedPart) <| .cat (lit " Invalid user ") <|
  .cat (.group 1 (.starL .dot)) <| .cat (lit " from ") <|
  .cat (.group 2 (.plusG .nonspace)) <| .cat (lit " port ") <|
  .cat (.plusG .digit) (.starG .space)

/-- Lookup of a captured group (Python `m["..."]`, by group number). -/
def capGet (caps : Caps) (n : Nat) : List Char :=
  ((caps.find? (fun p => p.1 == n)).map Prod.snd).getD []

/-- One parsed auth-failure event.  Field values are the raw captured
strings; `datetime.fromisoformat` conversion of the timestamp happens
downstream and is not part of the pattern-selection logic. -/
structure AuthfailEvent where
  timestamp : List Char
  username : List Char
  src_addr : List Char
deriving DecidableEq

/-- The per-line work of `authfail.process_input`: try the two patterns of
`MSG_REGEXEN` in order with `fullmatch`; build the event from the first
whole-line match; raise `ValueError("Could not parse logfile entry")` when
neither matches the whole line. -/
def processAuthLine (line : List Char) : Except (List Char) AuthfailEvent :=
  match fullmatch authPat1 line with
  | some caps => .ok ⟨capGet caps 0, capGet caps 1, capGet caps 2⟩
  | none =>
    match fullmatch authPat2 line with
    | some caps => .ok ⟨capGet caps 0, capGet caps 1, capGet caps 2⟩
    | none => .error "Could not parse logfile entry".data

/-- Does the head of `s` (if any) fail the class test?  Used to mark the
boundary where a greedy class run must stop. -/
def headNotP (p : Char → Bool) : List Char → Prop
  | [] => True
  | c :: _ => p c = false

/-- A pattern-1 line whose raw text contains "invalid user " but whose
actual username field is empty (note the doubled space before "from"). -/
def c4line : List Char :=
  "2024-01-02T03:04:05 myhost sshd[123]: Failed password for invalid user  from 1.2.3.4 port 22 ssh2".data

instance : DecidableEq (Except (List Char) AuthfailEvent) := fun a b =>
  match a, b with
  | .ok x, .ok y =>
    if h : x = y then .isTrue (by rw [h]) else .isFalse (fun hc => h (Except.ok.inj hc))
  | .error x, .error y =>
    if h : x = y then .isTrue (by rw [h]) else .isFalse (fun hc => h (Except.error.inj hc))
  | .ok _, .error _ => .isFalse (fun hc => Except.noConfusion hc)
  | .error _, .ok _ => .isFalse (fun hc => Except.noConfusion hc)

/-! ## Mail persistence (src/logsdb/maillog.py, `MailLog`, `Contact`) -/

/-- One `inbox_contacts` row. -/
structure Contact where
  id : Nat
  realname : String
  email_address : String
deriving DecidableEq

/-- The (realname, email_address) pair of a contact — the key whose
uniqueness the `UniqueConstraint("realname", "email_address")` declares. -/
def Contact.pair (c : Contact) : String × String := (c.realname, c.email_address)

/-- One `inbox` row: truncated subject, sender contact id, size and the
To/CC recipient contacts (the `inbox_tocc` relationship). -/
structure EMailRow where
  subject : String
  sender_id : Nat
  size : Nat
  tocc : List Contact
deriving DecidableEq

/-- The store state visible to `MailLog`: the `inbox_contacts` table, the
`inbox` table and the autoincrement counter for contact ids. -/
structure MailDB where
  contacts : List Contact
  inbox : List EMailRow
  nextId : Nat
deriving DecidableEq

/-- `MailLog.get_contact`: select the first Contact row with the given
(realname, address) pair; if none exists, insert a fresh row with an
auto-assigned id and return it (find-or-create). -/
def get_contact (db : MailDB) (realname email : String) : Contact × MailDB :=
  match db.contacts.find? (fun c => c.realname == realname && c.email_address == email) with
  | some c => (c, db)
  | none =>
    (⟨db.nextId, realname, email⟩,
     { contacts := db.contacts ++ [⟨db.nextId, realname, email⟩],
       inbox := db.inbox, nextId := db.nextId + 1 })

/-- One loop iteration of `MailLog.insert_entry` over `recipients`:
find-or-create the Contact; append it to `tocc` unless its id is already
in `tocc_ids`.  State is (tocc, tocc_ids, db). -/
def insertRecipStep (st : List Contact × List Nat × MailDB) (r : String × String) :
    List Contact × List Nat × MailDB :=
  let p := get_contact st.2.2 r.1 r.2
  if p.1.id ∈ st.2.1 then (st.1, st.2.1, p.2)
  else (st.1 ++ [p.1], p.1.id :: st.2.1, p.2)

/-- `MailLog.insert_entry`: dedup the recipients by contact id (keeping
first occurrences), find-or-create the sender Contact, truncate the
subject to 2048 characters and append the new `inbox` row. -/
def insert_entry (db : MailDB) (subject : String) (sender : String × String)
    (recipients : List (String × String)) (size : Nat) : MailDB :=
  let st := recipients.foldl insertRecipStep ([], [], db)
  let q := get_contact st.2.2 sender.1 sender.2
  { contacts := q.2.contacts,
    inbox := q.2.inbox ++ [⟨subject.take 2048, q.1.id, size, st.1⟩],
    nextId := q.2.nextId }

/-- Store invariant: contact (realname, address) pairs are unique, contact
ids are unique, and every assigned id is below the autoincrement counter. -/
def GoodDB (db : MailDB) : Prop :=
  (db.contacts.map Contact.pair).Nodup ∧ (db.contacts.map Contact.id).Nodup ∧
    ∀ c ∈ db.contacts, c.id < db.nextId

/-- First-occurrence deduplication relative to an already-seen set. -/
def dedupKeep (seen : List (String × String)) :
    List (String × String) → List (String × String)
  | [] => []
  | a :: rest =>
    if a ∈ seen then dedupKeep seen rest else a :: dedupKeep (a :: seen) rest

/-! ## Mail daily report recipients (src/logsdb/maillog.py, `daily_report`) -/

/-- The part of an address after its first `@`:
`c.email_address.partition("@")[2]` (empty when there is no `@`). -/
def domainAfterAt (s : String) : List Char :=
  match breakAtSep '@' s.data with
  | some p => p.2
  | none => []

/-- The order of `recips.sort(key=lambda c: (c.realname, c.email_address))`:
lexicographic on the (realname, address) string pair. -/
def contactKeyLe (c d : Contact) : Prop :=
  c.realname < d.realname ∨ (c.realname = d.realname ∧ c.email_address ≤ d.email_address)

instance : DecidableRel contactKeyLe := fun c d => by
  unfold contactKeyLe
  infer_instance

instance : IsTrans Contact contactKeyLe := by
  constructor
  intro a b c hab hbc
  unfold contactKeyLe at hab hbc ⊢
  rcases hab with h1 | ⟨h1e, h1le⟩
  · rcases hbc with h2 | ⟨h2e, _⟩
    · exact Or.inl (lt_trans h1 h2)
    · exact Or.inl (by rw [← h2e]; exact h1)
  · rcases hbc with h2 | ⟨h2e, h2le⟩
    · exact Or.inl (by rw [h1e]; exact h2)
    · exact Or.inr ⟨h1e.trans h2e, le_trans h1le h2le⟩

instance : IsTotal Contact contactKeyLe := by
  constructor
  intro a b
  unfold contactKeyLe
  rcases lt_trichotomy a.realname b.realname with h | h | h
  · exact Or.inl (Or.inl h)
  · rcases le_total a.email_address b.email_address with he | he
    · exact Or.inl (Or.inr ⟨h, he⟩)
    · exact Or.inr (Or.inr ⟨h.symm, he⟩)
  · exact Or.inr (Or.inl h)

/-- The recipient list rendered for one message of the mail daily report:
keep the recipients whose domain is (by exact string comparison) a member
of `dests`, then sort by (realname, address).  `dests` models the already
lowercased, comma-split output of `postconf -hx mydestination`. -/
def reportRecipients (tocc : List Contact) (dests : List (List Char)) : List Contact :=
  List.insertionSort contactKeyLe
    (tocc.filter (fun c => decide (domainAfterAt c.email_address ∈ dests)))

/-- A recipient contact whose address domain differs from the destination
set only by letter case. -/
def c5contact : Contact := ⟨1, "Bob", "bob@EXAMPLE.com"⟩

/-! ## Report window (src/logsdb/core.py, `one_day_ago`) -/

/-- `one_day_ago()`: report-generation time minus 24 hours (seconds). -/
def one_day_ago (now : Int) : Int := now - 86400

/-- The event-selection predicate shared verbatim by the three daily
reports (`apache_access.py` line 93, `authfail.py` line 36, `maillog.py`
line 111): `timestamp >= one_day_ago()`, applied to event timestamps. -/
def windowFilter (now : Int) (stamps : List Int) : List Int :=
  stamps.filter (fun ts => decide (one_day_ago now ≤ ts))

/-! ## Mail-header subject (src/logsdb/maillog.py, `process_input`) -/

/-- `msg["Subject"] or "NO SUBJECT"`: `none` models an absent Subject
header (Python `None`).  Python's `or` falls through to "NO SUBJECT" on
every falsy left operand — on `None` and on a present-but-empty value. -/
def subjectOf (hdr : Option String) : String :=
  match hdr with
  | none => "NO SUBJECT"
  | some s => if s = "" then "NO SUBJECT" else s

/-! ## Digest subject tags (src/logsdb/dailyreport.py, `main`) -/

/-- The fixed priority list `TAGSEQ = "DISK LOGERR REBOOT MAIL".split()`. -/
def TAGSEQ : List String := ["DISK", "LOGERR", "REBOOT", "MAIL"]

/-- One step of the priority walk: if the tag is in the set, emit `[t] `
and remove the tag from the set. -/
def tagStep (acc : String × List String) (t : String) : String × List String :=
  if t ∈ acc.2 then (acc.1 ++ "[" ++ t ++ "] ", acc.2.erase t) else acc

/-- Subject construction of `dailyreport.main`: walk `TAGSEQ` emitting and
removing present tags, emit the remaining tags in sorted order, then
append the literal status text.  The accumulated tag set is modelled as a
duplicate-free list. -/
def buildSubject (tags : List String) (hostname ts : String) : String :=
  let st := TAGSEQ.foldl tagStep ("", tags)
  let s2 := (List.insertionSort (fun a b : String => a ≤ b) st.2).foldl
    (fun s t => s ++ "[" ++ t ++ "] ") st.1
  s2 ++ "Status Report: " ++ hostname ++ ", " ++ ts

/-- The bracketed rendering of one tag. -/
def tagBrk (t : String) : String := "[" ++ t ++ "] "

/-! ## Theorems -/

theorem latin1Encode_decode (b : List (Fin 256)) :
    latin1Encode (latin1Decode b) = some b := by
  induction b with
  | nil => rfl
  | cons x xs ih =>
    simp [latin1Decode, latin1Encode] at ih ⊢
    exact ih

theorem breakAtSep_none_count {sep : Char} {s : List Char}
    (h : breakAtSep sep s = none) : s.count sep = 0 := by
  induction s with
  | nil => rfl
  | cons c rest ih =>
    by_cases hc : c = sep
    · simp [breakAtSep, hc] at h
    · simp [breakAtSep, hc, Option.map_eq_none] at h
      simp [List.count_cons, ih h, Ne.symm hc]

theorem breakAtSep_some_count {sep : Char} {s pre post : List Char}
    (h : breakAtSep sep s = some (pre, post)) :
    s.count sep = post.count sep + 1 := by
  induction s generalizing pre post with
  | nil => simp [breakAtSep] at h
  | cons c rest ih =>
    by_cases hc : c = sep
    · simp only [breakAtSep, if_pos hc, Option.some.injEq, Prod.mk.injEq] at h
      rw [← h.2]
      simp [List.count_cons, hc]
    · simp only [breakAtSep, if_neg hc, Option.map_eq_some'] at h
      obtain ⟨⟨p1, p2⟩, hp, hmk⟩ := h
      obtain ⟨hpre, hpost⟩ := Prod.mk.injEq .. ▸ hmk
      subst hpost
      simp [List.count_cons, Ne.symm hc, ih hp]

theorem pySplit_length {sep : Char} (m : Nat) (s : List Char)
    (h : s.count sep ≤ m) : (pySplit sep s m).length = s.count sep + 1 := by
  induction m generalizing s with
  | zero =>
    have : s.count sep = 0 := Nat.le_zero.mp h
    simp [pySplit, this]
  | succ m ih =>
    cases hb : breakAtSep sep s with
    | none => simp [pySplit, hb, breakAtSep_none_count hb]
    | some p =>
      obtain ⟨pre, post⟩ := p
      have hc := breakAtSep_some_count hb
      have hp2 : post.count sep ≤ m := by omega
      simp [pySplit, hb, ih post hp2, hc]

theorem accessFromFields_ne9 (l : List (List Char)) (h : l.length ≠ 9) :
    accessFromFields l = none := by
  rcases l with _ | ⟨a, _ | ⟨b, _ | ⟨c, _ | ⟨d, _ | ⟨e, _ | ⟨f, _ | ⟨g, _ | ⟨h8, _ | ⟨i, rest⟩⟩⟩⟩⟩⟩⟩⟩⟩ <;>
    first
    | rfl
    | (cases rest with
       | nil => exact absurd rfl h
       | cons j rest2 => rfl)

/-- C2 (amended): an input line with fewer than 9 pipe-delimited fields
always fails the 9-way unpacking, so the access-log parser raises and no
event is inserted for that line.  (Lines with more than 9 pipe-delimited
fields are not rejected outright: `split("|", 8)` stops after 8
separators, leaving the extra pipes inside the 9th field.) -/
theorem c2_fewer_than_nine_fields_fails (line : List Char)
    (h : numPipeFields line < 9) : parseAccessLine line = none := by
  have hc : line.count '|' ≤ 8 := by
    unfold numPipeFields at h; omega
  apply accessFromFields_ne9
  rw [pySplit_length 8 line hc]
  unfold numPipeFields at h; omega

/-- Witness for the amended C2 at a 3-field line. -/
theorem c2_fewer_than_nine_fields_fails_witness :
    numPipeFields "a|b|c".data < 9 ∧ parseAccessLine "a|b|c".data = none :=
  ⟨by decide, c2_fewer_than_nine_fields_fails _ (by decide)⟩

/-- Counterexample to C2 as stated: this line has 10 pipe-delimited
fields, yet the access-log parser succeeds (and the event is inserted),
because `line.split("|", 8)` performs at most 8 splits and keeps the 10th
field inside the 9th. -/
theorem c2_ten_fields_counterexample :
    numPipeFields c2line = 10 ∧ (parseAccessLine c2line).isSome = true := by
  constructor
  · decide
  · decide

/-- C1: the access-log reencoding step is a round trip.  For every byte
sequence `b` that is valid UTF-8 (i.e. `utf8Decode b = some cs`), applying
`reencode` to the string obtained by decoding `b` as ISO-8859-1 yields
exactly the string obtained by decoding `b` as UTF-8; hence each of the 7
mangled strings of a well-formed access-log line is restored to its
original pre-mangling text. -/
theorem c1_reencode_roundtrip (b : List (Fin 256)) (cs : List Nat)
    (h : utf8Decode b = some cs) :
    reencode (latin1Decode b) = some cs := by
  simp [reencode, latin1Encode_decode, h]

/-- Witness for C1 at the two-byte UTF-8 encoding of U+00E9. -/
theorem c1_reencode_roundtrip_witness :
    utf8Decode [(0xC3 : Fin 256), (0xA9 : Fin 256)] = some [0xE9] ∧
      reencode (latin1Decode [(0xC3 : Fin 256), (0xA9 : Fin 256)]) = some [0xE9] :=
  ⟨by decide, c1_reencode_roundtrip _ _ (by decide)⟩

/-- C3 (amended): for every input line, exactly the two fixed patterns are
tried in order with whole-line `fullmatch`: pattern 1's captures are used
whenever it matches the whole line (regardless of pattern 2), pattern 2's
captures are used when pattern 1 fails and pattern 2 matches, and the
parse fails — raising `ValueError("Could not parse logfile entry")` —
precisely when neither pattern matches the whole line. -/
theorem c3_two_patterns_in_order (line : List Char) :
    (∀ caps, fullmatch authPat1 line = some caps →
      processAuthLine line = .ok ⟨capGet caps 0, capGet caps 1, capGet caps 2⟩) ∧
    (∀ caps, fullmatch authPat1 line = none → fullmatch authPat2 line = some caps →
      processAuthLine line = .ok ⟨capGet caps 0, capGet caps 1, capGet caps 2⟩) ∧
    (processAuthLine line = .error "Could not parse logfile entry".data ↔
      fullmatch authPat1 line = none ∧ fullmatch authPat2 line = none) := by
  refine ⟨fun caps h => by simp [processAuthLine, h],
          fun caps h1 h2 => by simp [processAuthLine, h1, h2], ?_, ?_⟩
  · intro herr
    cases h1 : fullmatch authPat1 line with
    | some caps => simp [processAuthLine, h1] at herr
    | none =>
      cases h2 : fullmatch authPat2 line with
      | some caps => simp [processAuthLine, h1, h2] at herr
      | none => exact ⟨rfl, rfl⟩
  · rintro ⟨h1, h2⟩
    simp [processAuthLine, h1, h2]

/-- Witness for the amended C3 at the unparsable line "x". -/
theorem c3_two_patterns_in_order_witness :
    processAuthLine "x".data = .error "Could not parse logfile entry".data :=
  (c3_two_patterns_in_order "x".data).2.2.mpr ⟨by decide, by decide⟩

/-- Counterexample to C3 as stated: on a line matching neither pattern the
raised message is "Could not parse logfile entry" (capital C), not the
claimed "could not parse logfile entry". -/
theorem c3_error_message_counterexample :
    fullmatch authPat1 "x".data = none ∧ fullmatch authPat2 "x".data = none ∧
    processAuthLine "x".data = .error "Could not parse logfile entry".data ∧
    processAuthLine "x".data ≠ .error "could not parse logfile entry".data := by
  refine ⟨by decide, by decide, by decide, by decide⟩

theorem dropPre_self_append (w s : List Char) : dropPre w (w ++ s) = some s := by
  induction w with
  | nil => rfl
  | cons c w ih => simp [dropPre, ih]

theorem dropPre_self (w : List Char) : dropPre w w = some [] := by
  have := dropPre_self_append w []
  rwa [List.append_nil] at this

theorem dropPre_none_of_not_pre {w v : List Char} (h : w.isPrefixOf v = false) :
    dropPre w v = none := by
  induction w generalizing v with
  | nil => simp [List.isPrefixOf] at h
  | cons c w ih =>
    cases v with
    | nil => rfl
    | cons d v2 =>
      by_cases hcd : c = d
      · subst hcd
        simp only [List.isPrefixOf, beq_self_eq_true, Bool.true_and] at h
        simp [dropPre, ih h]
      · simp [dropPre, hcd]

theorem dropPre_append_none {w v : List Char} (x : List Char)
    (h : dropPre w v = none) (hnp : v.isPrefixOf w = false) :
    dropPre w (v ++ x) = none := by
  induction w generalizing v with
  | nil => simp [dropPre] at h
  | cons c w ih =>
    cases v with
    | nil => simp [List.isPrefixOf] at hnp
    | cons d v2 =>
      by_cases hcd : c = d
      · subst hcd
        simp only [dropPre, if_pos rfl] at h ⊢
        simp only [List.isPrefixOf, beq_self_eq_true, Bool.true_and] at hnp
        exact ih h hnp
      · simp [dropPre, hcd]

theorem isPrefixOf_false_of_lt {v w : List Char} (h : w.length < v.length) :
    v.isPrefixOf w = false := by
  cases hb : v.isPrefixOf w with
  | false => rfl
  | true =>
    have hp : v <+: w := List.isPrefixOf_iff_prefix.mp hb
    have := hp.length_le
    omega

theorem leadRun_le_length (p : Char → Bool) (s : List Char) :
    leadRun p s ≤ s.length := by
  induction s with
  | nil => simp [leadRun]
  | cons c rest ih =>
    by_cases hc : p c
    · simp only [leadRun, hc, if_true, List.length_cons]
      omega
    · simp [leadRun, hc]

theorem leadRun_append_of_boundary {p : Char → Bool} {a b : List Char}
    (ha : ∀ c ∈ a, p c = true) (hb : headNotP p b) :
    leadRun p (a ++ b) = a.length := by
  induction a with
  | nil =>
    cases b with
    | nil => simp [leadRun]
    | cons c rest => simp only [headNotP] at hb; simp [leadRun, hb]
  | cons c a2 ih =>
    have hc : p c = true := ha c (List.mem_cons_self c a2)
    have ih2 := ih (fun x hx => ha x (List.mem_cons_of_mem c hx))
    simp only [List.cons_append, List.length_cons]
    simp [leadRun, hc, List.append_eq, ih2]

theorem le_leadRun_append {p : Char → Bool} {a : List Char} (b : List Char)
    (ha : ∀ c ∈ a, p c = true) : a.length ≤ leadRun p (a ++ b) := by
  induction a with
  | nil => simp
  | cons c a2 ih =>
    have hc : p c = true := ha c (List.mem_cons_self c a2)
    have ih2 := ih (fun x hx => ha x (List.mem_cons_of_mem c hx))
    simp only [List.cons_append, List.length_cons]
    simp only [leadRun, hc, if_true, List.append_eq]
    omega

theorem firstSome_upRange {f : Nat → Option Caps} {r : Caps} :
    ∀ (n lo L : Nat), lo ≤ L → L < lo + n →
      (∀ i, lo ≤ i → i < L → f i = none) → f L = some r →
      firstSome f (upRange lo n) = some r := by
  intro n
  induction n with
  | zero => intro lo L h1 h2 _ _; omega
  | succ m ih =>
    intro lo L h1 h2 hfail hL
    simp only [upRange, firstSome]
    by_cases hlo : lo = L
    · subst hlo; rw [hL]; rfl
    · rw [hfail lo le_rfl (by omega)]
      exact ih (lo + 1) L (by omega) (by omega) (fun i hi1 hi2 => hfail i (by omega) hi2) hL

theorem matchR_cat (a b : RE) (s : List Char) (caps : Caps)
    (k : List Char → Caps → Option Caps) :
    matchR (.cat a b) s caps k = matchR a s caps (fun s1 c1 => matchR b s1 c1 k) := rfl

theorem matchR_group (nn : Nat) (a : RE) (s : List Char) (caps : Caps)
    (k : List Char → Caps → Option Caps) :
    matchR (.group nn a) s caps k =
      matchR a s caps (fun s1 c1 => k s1 ((nn, s.take (s.length - s1.length)) :: c1)) := rfl

theorem matchR_str_append {w s : List Char} {caps : Caps}
    {k : List Char → Caps → Option Caps} :
    matchR (.str w) (w ++ s) caps k = k s caps := by
  simp [matchR, dropPre_self_append]

theorem matchR_str_self {w : List Char} {caps : Caps}
    {k : List Char → Caps → Option Caps} :
    matchR (.str w) w caps k = k [] caps := by
  simp [matchR, dropPre_self]

theorem matchR_str_none {w s : List Char} {caps : Caps}
    {k : List Char → Caps → Option Caps} (h : dropPre w s = none) :
    matchR (.str w) s caps k = none := by
  simp [matchR, h]

theorem matchR_str_mismatch {w v : List Char} (x : List Char) {caps : Caps}
    {k : List Char → Caps → Option Caps}
    (h : dropPre w v = none) (hnp : v.isPrefixOf w = false) :
    matchR (.str w) (v ++ x) caps k = none :=
  matchR_str_none (dropPre_append_none x h hnp)

theorem matchR_alt_left {a b : RE} {s : List Char} {caps : Caps}
    {k : List Char → Caps → Option Caps} {r : Caps}
    (h : matchR a s caps k = some r) :
    matchR (.alt a b) s caps k = some r := by
  simp [matchR, h, Option.orElse]

theorem matchR_opt_of_some {a : RE} {s : List Char} {caps : Caps}
    {k : List Char → Caps → Option Caps} {r : Caps}
    (h : matchR a s caps k = some r) :
    matchR (.opt a) s caps k = some r := by
  simp [matchR, h, Option.orElse]

theorem matchR_opt_of_none {a : RE} {s : List Char} {caps : Caps}
    {k : List Char → Caps → Option Caps}
    (h : matchR a s caps k = none) :
    matchR (.opt a) s caps k = k s caps := by
  simp [matchR, h, Option.orElse]

theorem matchR_plusG_exact {p : CharCls} {a b : List Char} {caps : Caps}
    {k : List Char → Caps → Option Caps} {r : Caps}
    (hne : a ≠ []) (ha : ∀ c ∈ a, p.matches c = true) (hb : headNotP p.matches b)
    (hk : k b caps = some r) :
    matchR (.plusG p) (a ++ b) caps k = some r := by
  have hrun : leadRun p.matches (a ++ b) = a.length := leadRun_append_of_boundary ha hb
  obtain ⟨m, hm⟩ : ∃ m, a.length = m + 1 := by
    cases a with
    | nil => exact absurd rfl hne
    | cons x xs => exact ⟨xs.length, rfl⟩
  have hd : (a ++ b).drop a.length = b := List.drop_left a b
  simp only [matchR, hrun, hm, downRange1, firstSome]
  rw [← hm, hd, hk]
  rfl

theorem matchR_starG_nil {p : CharCls} {caps : Caps}
    {k : List Char → Caps → Option Caps} {r : Caps}
    (hk : k [] caps = some r) : matchR (.starG p) [] caps k = some r := by
  simp only [matchR, leadRun, downRange0, firstSome, List.drop_nil, hk]
  rfl

theorem matchR_plusL_exact {p : CharCls} {s : List Char} {caps : Caps}
    {k : List Char → Caps → Option Caps} {r : Caps} {L : Nat}
    (hL1 : 1 ≤ L) (hLr : L ≤ leadRun p.matches s)
    (hfail : ∀ i, 1 ≤ i → i < L → k (s.drop i) caps = none)
    (hk : k (s.drop L) caps = some r) :
    matchR (.plusL p) s caps k = some r := by
  simp only [matchR]
  exact firstSome_upRange (leadRun p.matches s) 1 L hL1 (by omega)
    (fun i hi1 hi2 => hfail i hi1 hi2) hk

theorem matchR_group_plusG {p : CharCls} {a b : List Char} {caps : Caps}
    {k : List Char → Caps → Option Caps} {r : Caps} (nn : Nat)
    (hne : a ≠ []) (ha : ∀ c ∈ a, p.matches c = true) (hb : headNotP p.matches b)
    (hk : k b ((nn, a) :: caps) = some r) :
    matchR (.group nn (.plusG p)) (a ++ b) caps k = some r := by
  rw [matchR_group]
  apply matchR_plusG_exact hne ha hb
  simpa [List.length_append, Nat.add_sub_cancel, List.take_left] using hk

theorem matchR_group_plusL {p : CharCls} {s : List Char} {caps : Caps}
    {k : List Char → Caps → Option Caps} {r : Caps} (nn L : Nat)
    (hL1 : 1 ≤ L) (hLr : L ≤ leadRun p.matches s)
    (hfail : ∀ i, 1 ≤ i → i < L → k (s.drop i) ((nn, s.take i) :: caps) = none)
    (hk : k (s.drop L) ((nn, s.take L) :: caps) = some r) :
    matchR (.group nn (.plusL p)) s caps k = some r := by
  have hsl : ∀ i, i ≤ leadRun p.matches s → s.length - (s.drop i).length = i := by
    intro i hi
    have : i ≤ s.length := le_trans hi (leadRun_le_length p.matches s)
    rw [List.length_drop]
    omega
  rw [matchR_group]
  apply matchR_plusL_exact hL1 hLr
  · intro i hi1 hi2
    rw [hsl i (by omega)]
    exact hfail i hi1 hi2
  · rw [hsl L hLr]
    exact hk

theorem stepStr {w x : List Char} {b : RE} {caps : Caps}
    {k : List Char → Caps → Option Caps} {r : Caps}
    (h : matchR b x caps k = some r) :
    matchR (.cat (.str w) b) (w ++ x) caps k = some r := by
  rw [matchR_cat, matchR_str_append]
  exact h

theorem stepStrSelf {w : List Char} {b : RE} {caps : Caps}
    {k : List Char → Caps → Option Caps} {r : Caps}
    (h : matchR b [] caps k = some r) :
    matchR (.cat (.str w) b) w caps k = some r := by
  rw [matchR_cat, matchR_str_self]
  exact h

theorem stepPlusG {p : CharCls} {a bb : List Char} {b : RE} {caps : Caps}
    {k : List Char → Caps → Option Caps} {r : Caps}
    (hne : a ≠ []) (ha : ∀ c ∈ a, p.matches c = true) (hb : headNotP p.matches bb)
    (h : matchR b bb caps k = some r) :
    matchR (.cat (.plusG p) b) (a ++ bb) caps k = some r := by
  rw [matchR_cat]
  exact matchR_plusG_exact hne ha hb h

theorem stepGroupPlusG {p : CharCls} {a bb : List Char} {b : RE} {caps : Caps}
    {k : List Char → Caps → Option Caps} {r : Caps} (nn : Nat)
    (hne : a ≠ []) (ha : ∀ c ∈ a, p.matches c = true) (hb : headNotP p.matches bb)
    (h : matchR b bb ((nn, a) :: caps) k = some r) :
    matchR (.cat (.group nn (.plusG p)) b) (a ++ bb) caps k = some r := by
  rw [matchR_cat]
  exact matchR_group_plusG nn hne ha hb h

theorem stepGroupPlusL {p : CharCls} {s : List Char} {b : RE} {caps : Caps}
    {k : List Char → Caps → Option Caps} {r : Caps} (nn L : Nat)
    (hL1 : 1 ≤ L) (hLr : L ≤ leadRun p.matches s)
    (hfail : ∀ i, 1 ≤ i → i < L →
      matchR b (s.drop i) ((nn, s.take i) :: caps) k = none)
    (hk : matchR b (s.drop L) ((nn, s.take L) :: caps) k = some r) :
    matchR (.cat (.group nn (.plusL p)) b) s caps k = some r := by
  rw [matchR_cat]
  exact matchR_group_plusL nn L hL1 hLr hfail hk

theorem stepOptSome {a b : RE} {s : List Char} {caps : Caps}
    {k : List Char → Caps → Option Caps} {r : Caps}
    (h : matchR (.cat a b) s caps k = some r) :
    matchR (.cat (.opt a) b) s caps k = some r := by
  rw [matchR_cat] at h ⊢
  exact matchR_opt_of_some h

theorem stepOptNone {a b : RE} {s : List Char} {caps : Caps}
    {k : List Char → Caps → Option Caps} {r : Caps}
    (hnone : matchR (.cat a b) s caps k = none)
    (h : matchR b s caps k = some r) :
    matchR (.cat (.opt a) b) s caps k = some r := by
  rw [matchR_cat] at hnone ⊢
  rw [matchR_opt_of_none hnone]
  exact h

theorem stepAltLeft {a a2 b : RE} {s : List Char} {caps : Caps}
    {k : List Char → Caps → Option Caps} {r : Caps}
    (h : matchR (.cat a b) s caps k = some r) :
    matchR (.cat (.alt a a2) b) s caps k = some r := by
  rw [matchR_cat] at h ⊢
  exact matchR_alt_left h

/-- C4 (amended): pattern 1 strips the "invalid user " marker whenever the
optional-prefix branch of the regex can complete.  Concretely: on every
line of the canonical pattern-1 shape whose username field `u` is
nonempty, newline-free and is followed by the first " from " of the
remainder, with the "invalid user " marker present in the raw text, the
captured username is exactly `u`, without the marker.  (As stated the
claim fails: in degenerate spacing or repeated-marker cases the engine
backtracks to the empty-option branch and the captured username itself
begins with "invalid user ".) -/
theorem c4_amended_marker_stripped
    (ts host pid u addr n : List Char)
    (hts : ts ≠ []) (htsw : ∀ c ∈ ts, pySpaceChar c = false)
    (hhost : host ≠ []) (hhostw : ∀ c ∈ host, pySpaceChar c = false)
    (hpid : pid ≠ []) (hpidd : ∀ c ∈ pid, c.isDigit = true)
    (hu : u ≠ []) (hud : ∀ c ∈ u, c ≠ '\n')
    (hufrom : ∀ i < u.length, 1 ≤ i →
      (" from ".data).isPrefixOf (u.drop i ++ " from ".data) = false)
    (haddr : addr ≠ []) (haddrw : ∀ c ∈ addr, pySpaceChar c = false)
    (hn : n ≠ []) (hnd : ∀ c ∈ n, c.isDigit = true) :
    fullmatch authPat1
      (ts ++ (" ".data ++ (host ++ (" sshd[".data ++ (pid ++ ("]:".data ++
        (" Failed ".data ++ ("password".data ++ (" for ".data ++
        ("invalid user ".data ++ (u ++ (" from ".data ++ (addr ++
        (" port ".data ++ (n ++ " ssh2".data))))))))))))))) =
      some [(2, addr), (1, u), (0, ts)] := by
  have hnsp : ∀ (l : List Char), (∀ c ∈ l, pySpaceChar c = false) →
      ∀ c ∈ l, CharCls.matches .nonspace c = true := fun l hl c hc => by
    simp [CharCls.matches, hl c hc]
  have hdig : ∀ (l : List Char), (∀ c ∈ l, c.isDigit = true) →
      ∀ c ∈ l, CharCls.matches .digit c = true := fun l hl c hc => by
    simp [CharCls.matches, hl c hc]
  have hdot : ∀ c ∈ u, CharCls.matches .dot c = true := fun c hc => by
    simp [CharCls.matches, hud c hc]
  simp only [fullmatch, authPat1, repeatedPart, failedKind, lit]
  rw [matchR_cat]
  refine matchR_group_plusG 0 hts (hnsp ts htsw) ?_ ?_
  · exact (by decide : CharCls.matches .nonspace ' ' = false)
  refine stepStr ?_
  refine stepPlusG hhost (hnsp host hhostw) ?_ ?_
  · exact (by decide : CharCls.matches .nonspace ' ' = false)
  refine stepStr ?_
  refine stepPlusG hpid (hdig pid hpidd) ?_ ?_
  · exact (by decide : CharCls.matches .digit ']' = false)
  refine stepStr ?_
  refine stepOptNone ?_ ?_
  · rw [matchR_cat, matchR_cat]
    exact matchR_str_mismatch _ (by decide) (by decide)
  refine stepStr ?_
  refine stepAltLeft ?_
  refine stepStr ?_
  refine stepStr ?_
  refine stepOptSome ?_
  refine stepStr ?_
  refine stepGroupPlusL 1 u.length ?_ ?_ ?_ ?_
  · exact List.length_pos.mpr hu
  · exact le_leadRun_append _ hdot
  · intro i hi1 hi2
    have hile : i ≤ u.length := le_of_lt hi2
    rw [List.drop_append_eq_append_drop, Nat.sub_eq_zero_of_le hile, List.drop_zero,
      ← List.append_assoc, matchR_cat]
    refine matchR_str_mismatch _ (dropPre_none_of_not_pre (hufrom i hi2 hi1)) ?_
    refine isPrefixOf_false_of_lt ?_
    have h6 : (" from ".data).length = 6 := rfl
    rw [List.length_append, List.length_drop, h6]
    omega
  rw [List.drop_left, List.take_left]
  refine stepStr ?_
  refine stepGroupPlusG 2 haddr (hnsp addr haddrw) ?_ ?_
  · exact (by decide : CharCls.matches .nonspace ' ' = false)
  refine stepStr ?_
  refine stepPlusG hn (hdig n hnd) ?_ ?_
  · exact (by decide : CharCls.matches .digit ' ' = false)
  refine stepStrSelf ?_
  refine stepOptNone ?_ ?_
  · rw [matchR_cat]
    exact matchR_str_none (by decide)
  exact matchR_starG_nil rfl

/-- Witness for the amended C4 on a canonical line with the marker. -/
theorem c4_amended_marker_stripped_witness :
    fullmatch authPat1
      ("2024-01-02T03:04:05".data ++ (" ".data ++ ("myhost".data ++
        (" sshd[".data ++ ("123".data ++ ("]:".data ++ (" Failed ".data ++
        ("password".data ++ (" for ".data ++ ("invalid user ".data ++
        ("bob".data ++ (" from ".data ++ ("1.2.3.4".data ++ (" port ".data ++
        ("22".data ++ " ssh2".data))))))))))))))) =
      some [(2, "1.2.3.4".data), (1, "bob".data), (0, "2024-01-02T03:04:05".data)] :=
  c4_amended_marker_stripped "2024-01-02T03:04:05".data "myhost".data "123".data
    "bob".data "1.2.3.4".data "22".data
    (by decide) (by decide) (by decide) (by decide) (by decide) (by decide)
    (by decide) (by decide) (by decide) (by decide) (by decide) (by decide) (by decide)

/-- Counterexample to C4 as stated: `c4line` matches pattern 1 and its raw
text contains the "invalid user " marker, yet the captured username is
exactly "invalid user " — the marker is retained, because after consuming
the greedy optional prefix no " from " remains for the lazy `.+?`, so the
engine backtracks to the empty-option branch. -/
theorem c4_keeps_marker_counterexample :
    (fullmatch authPat1 c4line).map (fun caps => capGet caps 1) =
      some "invalid user ".data ∧
    "invalid user ".data <:+: c4line ∧
    List.isPrefixOf "invalid user ".data "invalid user ".data = true := by
  refine ⟨by decide, by decide, by decide⟩

/-- C8 (amended): each daily report selects exactly the persisted events
whose timestamp is at least report-generation time minus 24 hours
(inclusive); no upper bound is applied, so events with timestamps after
the generation time are also included. -/
theorem c8_window_lower_bound_only (now : Int) (stamps : List Int) (ts : Int) :
    ts ∈ windowFilter now stamps ↔ ts ∈ stamps ∧ one_day_ago now ≤ ts := by
  simp [windowFilter, List.mem_filter]

/-- Witness for the amended C8. -/
theorem c8_window_lower_bound_only_witness :
    (3600 : Int) ∈ windowFilter 0 [3600] :=
  (c8_window_lower_bound_only 0 [3600] 3600).mpr ⟨by decide, by decide⟩

/-- Counterexample to C8 as stated: a persisted event dated one hour
after report-generation time lies outside the claimed interval
[now − 24h, now], yet the query's `timestamp >= one_day_ago()` filter
keeps it. -/
theorem c8_future_event_counterexample :
    windowFilter 0 [3600] = [3600] ∧ ¬((3600 : Int) ≤ 0) :=
  ⟨by decide, by decide⟩

/-- C9 (amended): the subject handed to persistence is the Subject
header's value when that value is nonempty, and it is the literal
"NO SUBJECT" exactly when the header is absent, present but empty, or
itself the string "NO SUBJECT".  (Persistence then truncates it to 2048
characters.) -/
theorem c9_subject_value (hdr : Option String) :
    (subjectOf hdr = "NO SUBJECT" ↔
      hdr = none ∨ hdr = some "" ∨ hdr = some "NO SUBJECT") ∧
    ∀ s : String, s ≠ "" → subjectOf (some s) = s := by
  constructor
  · cases hdr with
    | none => simp [subjectOf]
    | some s =>
      by_cases hs : s = ""
      · subst hs; simp [subjectOf]
      · simp [subjectOf, hs]
  · intro s hs
    simp [subjectOf, hs]

/-- Witness for the amended C9. -/
theorem c9_subject_value_witness : subjectOf (some "hello") = "hello" :=
  (c9_subject_value (some "hello")).2 "hello" (by decide)

/-- Counterexample to C9 as stated: a present-but-empty Subject header
also stores "NO SUBJECT", so "NO SUBJECT" does not hold *only if* the
header is absent. -/
theorem c9_empty_subject_counterexample :
    subjectOf (some "") = "NO SUBJECT" ∧ (some "" : Option String) ≠ none :=
  ⟨rfl, by simp⟩

/-- C5 (amended): the recipient list rendered for an in-window mail event
consists exactly of those of its recipients whose domain — the part after
the first `@`, compared byte-for-byte — is a member of the (lowercased)
local-destination set, sorted by (realname, address) ascending.  The
recipient's domain is *not* lowercased before the comparison, so the
membership test is case-sensitive on the recipient side. -/
theorem c5_recipients_filter_sort (tocc : List Contact) (dests : List (List Char)) :
    List.Perm (reportRecipients tocc dests)
      (tocc.filter (fun c => decide (domainAfterAt c.email_address ∈ dests))) ∧
    List.Sorted contactKeyLe (reportRecipients tocc dests) ∧
    ∀ c, c ∈ reportRecipients tocc dests ↔
      c ∈ tocc ∧ domainAfterAt c.email_address ∈ dests := by
  refine ⟨List.perm_insertionSort _ _, List.sorted_insertionSort _ _, ?_⟩
  intro c
  rw [reportRecipients, (List.perm_insertionSort contactKeyLe _).mem_iff]
  simp [List.mem_filter]

/-- Witness for the amended C5. -/
theorem c5_recipients_filter_sort_witness :
    (⟨2, "A", "a@x.com"⟩ : Contact) ∈
      reportRecipients [⟨2, "A", "a@x.com"⟩] ["x.com".data] :=
  ((c5_recipients_filter_sort [⟨2, "A", "a@x.com"⟩] ["x.com".data]).2.2 _).mpr
    ⟨by decide, by decide⟩

/-- Counterexample to C5 as stated: this recipient's domain equals a
destination domain case-insensitively (lowercasing it gives exactly
"example.com"), yet the rendered recipient list is empty, because the
code lowercases only the destination set, not the recipient's domain. -/
theorem c5_case_sensitivity_counterexample :
    reportRecipients [c5contact] ["example.com".data] = [] ∧
    (domainAfterAt c5contact.email_address).map Char.toLower = "example.com".data :=
  ⟨by decide, by decide⟩

theorem tagWalk (seq : List String) : ∀ (tags : List String) (s0 : String),
    tags.Nodup → seq.Nodup →
    seq.foldl tagStep (s0, tags) =
      ((seq.filter (fun t => decide (t ∈ tags))).foldl
          (fun s t => s ++ "[" ++ t ++ "] ") s0,
        tags.filter (fun t => decide (t ∉ seq))) := by
  induction seq with
  | nil =>
    intro tags s0 _ _
    simp
  | cons t seq2 ih =>
    intro tags s0 htags hseq
    rw [List.nodup_cons] at hseq
    rw [List.foldl_cons]
    by_cases ht : t ∈ tags
    · have hstep : tagStep (s0, tags) t = (s0 ++ "[" ++ t ++ "] ", tags.erase t) := by
        simp [tagStep, ht]
      rw [hstep, ih (tags.erase t) _ (htags.erase t) hseq.2]
      have hA : seq2.filter (fun x => decide (x ∈ tags.erase t)) =
          seq2.filter (fun x => decide (x ∈ tags)) := by
        apply List.filter_congr
        intro x hx
        have hxt : x ≠ t := fun he => hseq.1 (he ▸ hx)
        simp [List.mem_erase_of_ne hxt]
      have hB : (tags.erase t).filter (fun x => decide (x ∉ seq2)) =
          tags.filter (fun x => decide (x ∉ t :: seq2)) := by
        rw [htags.erase_eq_filter t, List.filter_filter]
        apply List.filter_congr
        intro x hx
        simp only [List.mem_cons, decide_not]
        by_cases hxt : x = t
        · subst hxt; simp
        · simp [hxt, Ne.symm hxt]
      rw [hA, hB]
      have hfilt : (t :: seq2).filter (fun x => decide (x ∈ tags)) =
          t :: seq2.filter (fun x => decide (x ∈ tags)) := by
        simp [List.filter_cons, ht]
      rw [hfilt, List.foldl_cons]
    · have hstep : tagStep (s0, tags) t = (s0, tags) := by
        simp [tagStep, ht]
      rw [hstep, ih tags _ htags hseq.2]
      have hA : (t :: seq2).filter (fun x => decide (x ∈ tags)) =
          seq2.filter (fun x => decide (x ∈ tags)) := by
        simp [List.filter_cons, ht]
      have hB : tags.filter (fun x => decide (x ∉ seq2)) =
          tags.filter (fun x => decide (x ∉ t :: seq2)) := by
        apply List.filter_congr
        intro x hx
        have hxt : x ≠ t := fun he => ht (he ▸ hx)
        simp [List.mem_cons, hxt]
      rw [hA, hB]

/-- C7: for every duplicate-free accumulated tag set, the digest subject
is the fixed-priority tags DISK, LOGERR, REBOOT, MAIL in that order
(skipping absent ones), each as `[TAG] `, followed by every remaining tag
in ascending (lexicographic) order, each as `[TAG] `, followed by the
literal `Status Report: <hostname>, <timestamp>`. -/
theorem c7_subject_tags (tags : List String) (hostname ts : String)
    (hnd : tags.Nodup) :
    buildSubject tags hostname ts =
      ((TAGSEQ.filter (fun t => decide (t ∈ tags)) ++
        List.insertionSort (fun a b : String => a ≤ b)
          (tags.filter (fun t => decide (t ∉ TAGSEQ)))).foldl
        (fun s t => s ++ "[" ++ t ++ "] ") "") ++
      "Status Report: " ++ hostname ++ ", " ++ ts := by
  unfold buildSubject
  rw [tagWalk TAGSEQ tags "" hnd (by decide), List.foldl_append]

/-- Witness for C7 at the tag set of the spec's example: the subject tag
region renders as "[LOGERR] [MAIL] [EXTRA] ". -/
theorem c7_subject_tags_witness :
    buildSubject ["MAIL", "LOGERR", "EXTRA"] "myhost" "2024-01-02T03:04:05Z" =
      "[LOGERR] [MAIL] [EXTRA] Status Report: myhost, 2024-01-02T03:04:05Z" := by
  rw [c7_subject_tags ["MAIL", "LOGERR", "EXTRA"] "myhost" "2024-01-02T03:04:05Z"
    (by decide)]
  decide

theorem get_contact_cases (db : MailDB) (rn em : String) :
    (∃ c, db.contacts.find? (fun c => c.realname == rn && c.email_address == em) =
        some c ∧ (get_contact db rn em).1 = c ∧ (get_contact db rn em).2 = db) ∨
    (db.contacts.find? (fun c => c.realname == rn && c.email_address == em) = none ∧
      (get_contact db rn em).1 = (⟨db.nextId, rn, em⟩ : Contact) ∧
      (get_contact db rn em).2 =
        { contacts := db.contacts ++ [⟨db.nextId, rn, em⟩],
          inbox := db.inbox, nextId := db.nextId + 1 }) := by
  cases hf : db.contacts.find? (fun c => c.realname == rn && c.email_address == em) with
  | some c =>
    exact Or.inl ⟨c, rfl, by simp only [get_contact, hf], by simp only [get_contact, hf]⟩
  | none =>
    exact Or.inr ⟨rfl, by simp only [get_contact, hf], by simp only [get_contact, hf]⟩

theorem get_contact_fst_pair (db : MailDB) (rn em : String) :
    ((get_contact db rn em).1).realname = rn ∧
      ((get_contact db rn em).1).email_address = em := by
  rcases get_contact_cases db rn em with ⟨c, hf, h1, h2⟩ | ⟨hf, h1, h2⟩
  · have hp := List.find?_some hf
    simp only [Bool.and_eq_true, beq_iff_eq] at hp
    rw [h1]
    exact hp
  · rw [h1]
    exact ⟨rfl, rfl⟩

theorem get_contact_extend (db : MailDB) (rn em : String) :
    ∃ ext, (get_contact db rn em).2.contacts = db.contacts ++ ext := by
  rcases get_contact_cases db rn em with ⟨c, hf, h1, h2⟩ | ⟨hf, h1, h2⟩
  · exact ⟨[], by rw [h2, List.append_nil]⟩
  · exact ⟨[⟨db.nextId, rn, em⟩], by rw [h2]⟩

theorem get_contact_inbox (db : MailDB) (rn em : String) :
    (get_contact db rn em).2.inbox = db.inbox := by
  rcases get_contact_cases db rn em with ⟨c, hf, h1, h2⟩ | ⟨hf, h1, h2⟩ <;> rw [h2]

theorem get_contact_mem (db : MailDB) (rn em : String) :
    (get_contact db rn em).1 ∈ (get_contact db rn em).2.contacts := by
  rcases get_contact_cases db rn em with ⟨c, hf, h1, h2⟩ | ⟨hf, h1, h2⟩
  · rw [h1, h2]
    exact List.mem_of_find?_eq_some hf
  · rw [h1, h2]
    exact List.mem_append_right _ (List.mem_singleton.mpr rfl)

theorem get_contact_good (db : MailDB) (rn em : String) (hg : GoodDB db) :
    GoodDB (get_contact db rn em).2 := by
  rcases get_contact_cases db rn em with ⟨c, hf, h1, h2⟩ | ⟨hf, h1, h2⟩
  · rw [h2]; exact hg
  · rw [h2]
    obtain ⟨hpairs, hids, hlt⟩ := hg
    have hnone := List.find?_eq_none.mp hf
    refine ⟨?_, ?_, ?_⟩
    · rw [List.map_append]
      simp only [List.map_cons, List.map_nil]
      rw [List.nodup_append]
      refine ⟨hpairs, List.nodup_singleton _, ?_⟩
      intro p hp hq
      simp only [List.mem_singleton] at hq
      subst hq
      obtain ⟨c0, hc0, hc0p⟩ := List.mem_map.mp hp
      have hnp := hnone c0 hc0
      simp only [Bool.and_eq_true, beq_iff_eq, not_and] at hnp
      simp only [Contact.pair, Prod.mk.injEq] at hc0p
      exact hnp hc0p.1 hc0p.2
    · rw [List.map_append]
      simp only [List.map_cons, List.map_nil]
      rw [List.nodup_append]
      refine ⟨hids, List.nodup_singleton _, ?_⟩
      intro i hi hq
      simp only [List.mem_singleton] at hq
      subst hq
      obtain ⟨c0, hc0, hc0i⟩ := List.mem_map.mp hi
      have := hlt c0 hc0
      omega
    · intro c0 hc0
      simp only
      rcases List.mem_append.mp hc0 with h | h
      · have := hlt c0 h
        omega
      · simp only [List.mem_singleton] at h
        subst h
        simp only
        omega

theorem find?_pair_eq (l : List Contact) (rn em : String)
    (hnd : (l.map Contact.pair).Nodup) (c0 : Contact) (hmem : c0 ∈ l)
    (hr : c0.realname = rn) (he : c0.email_address = em) :
    l.find? (fun c => c.realname == rn && c.email_address == em) = some c0 := by
  induction l with
  | nil => simp at hmem
  | cons d tl ih =>
    simp only [List.map_cons, List.nodup_cons] at hnd
    by_cases hd : (d.realname == rn && d.email_address == em) = true
    · simp only [List.find?, hd]
      simp only [Bool.and_eq_true, beq_iff_eq] at hd
      rcases List.mem_cons.mp hmem with h | h
      · rw [h]
      · exfalso
        apply hnd.1
        have hx : Contact.pair c0 ∈ tl.map Contact.pair :=
          List.mem_map_of_mem Contact.pair h
        have hpp : Contact.pair d = Contact.pair c0 := by
          simp [Contact.pair, hd.1, hd.2, hr, he]
        rw [hpp]
        exact hx
    · have hd2 : (d.realname == rn && d.email_address == em) = false := by
        simpa using hd
      simp only [List.find?, hd2]
      rcases List.mem_cons.mp hmem with h | h
      · exfalso
        apply hd
        subst h
        simp [hr, he]
      · exact ih hnd.2 h

theorem get_contact_stable (db : MailDB) (rn em : String) (hg : GoodDB db)
    {c0 : Contact} (hmem : c0 ∈ db.contacts) (hr : c0.realname = rn)
    (he : c0.email_address = em) :
    get_contact db rn em = (c0, db) := by
  have hf := find?_pair_eq db.contacts rn em hg.1 c0 hmem hr he
  simp only [get_contact, hf]

theorem countP_pair_le_one (l : List Contact) (rn em : String)
    (hnd : (l.map Contact.pair).Nodup) :
    l.countP (fun c => c.realname == rn && c.email_address == em) ≤ 1 := by
  induction l with
  | nil => simp
  | cons d tl ih =>
    simp only [List.map_cons, List.nodup_cons] at hnd
    rw [List.countP_cons]
    by_cases hd : (d.realname == rn && d.email_address == em) = true
    · have h0 : tl.countP (fun c => c.realname == rn && c.email_address == em) = 0 := by
        rw [List.countP_eq_zero]
        intro x hx hpx
        simp only [Bool.and_eq_true, beq_iff_eq] at hpx
        have hd1 := hd
        simp only [Bool.and_eq_true, beq_iff_eq] at hd1
        apply hnd.1
        have hxm : Contact.pair x ∈ tl.map Contact.pair :=
          List.mem_map_of_mem Contact.pair hx
        have hpp : Contact.pair d = Contact.pair x := by
          simp [Contact.pair, hd1.1, hd1.2, hpx.1, hpx.2]
        rw [hpp]
        exact hxm
      rw [h0, hd]
      simp
    · have hd2 : (d.realname == rn && d.email_address == em) = false := by
        simpa using hd
      rw [hd2]
      have := ih hnd.2
      simp only [Bool.false_eq_true, if_false]
      omega

theorem get_contact_countP (db : MailDB) (rn em : String) (hg : GoodDB db) :
    ((get_contact db rn em).2.contacts).countP
      (fun c => c.realname == rn && c.email_address == em) = 1 := by
  rcases get_contact_cases db rn em with ⟨c, hf, h1, h2⟩ | ⟨hf, h1, h2⟩
  · rw [h2]
    have hle := countP_pair_le_one db.contacts rn em hg.1
    have hmem := List.mem_of_find?_eq_some hf
    have hptrue := List.find?_some hf
    have hpos : 0 < db.contacts.countP
        (fun c => c.realname == rn && c.email_address == em) :=
      List.countP_pos_iff.mpr ⟨c, hmem, hptrue⟩
    omega
  · rw [h2]
    have h0 : db.contacts.countP
        (fun c => c.realname == rn && c.email_address == em) = 0 := by
      rw [List.countP_eq_zero]
      exact fun a ha => List.find?_eq_none.mp hf a ha
    simp only
    rw [List.countP_append, h0]
    simp

theorem insertRecipStep_db (st : List Contact × List Nat × MailDB)
    (r : String × String) :
    (insertRecipStep st r).2.2 = (get_contact st.2.2 r.1 r.2).2 := by
  unfold insertRecipStep
  by_cases h : (get_contact st.2.2 r.1 r.2).1.id ∈ st.2.1 <;> simp [h]

theorem foldRecips_db (rs : List (String × String)) :
    ∀ st : List Contact × List Nat × MailDB,
      (∃ ext, (rs.foldl insertRecipStep st).2.2.contacts = st.2.2.contacts ++ ext) ∧
      (rs.foldl insertRecipStep st).2.2.inbox = st.2.2.inbox ∧
      (GoodDB st.2.2 → GoodDB (rs.foldl insertRecipStep st).2.2) := by
  induction rs with
  | nil =>
    intro st
    exact ⟨⟨[], by simp⟩, rfl, fun h => h⟩
  | cons r rest ih =>
    intro st
    obtain ⟨⟨ext1, hext1⟩, hinbox1, hgood1⟩ := ih (insertRecipStep st r)
    obtain ⟨ext0, hext0⟩ := get_contact_extend st.2.2 r.1 r.2
    refine ⟨⟨ext0 ++ ext1, ?_⟩, ?_, ?_⟩
    · rw [List.foldl_cons, hext1, insertRecipStep_db, hext0, List.append_assoc]
    · rw [List.foldl_cons, hinbox1, insertRecipStep_db, get_contact_inbox]
    · intro hg
      rw [List.foldl_cons]
      apply hgood1
      rw [insertRecipStep_db]
      exact get_contact_good _ _ _ hg

theorem insert_entry_contacts (db : MailDB) (subj : String) (sender : String × String)
    (rs : List (String × String)) (sz : Nat) :
    (insert_entry db subj sender rs sz).contacts =
      (get_contact (rs.foldl insertRecipStep ([], [], db)).2.2
        sender.1 sender.2).2.contacts := rfl

theorem insert_entry_nextId (db : MailDB) (subj : String) (sender : String × String)
    (rs : List (String × String)) (sz : Nat) :
    (insert_entry db subj sender rs sz).nextId =
      (get_contact (rs.foldl insertRecipStep ([], [], db)).2.2
        sender.1 sender.2).2.nextId := rfl

theorem insert_entry_inbox_parent (db : MailDB) (subj : String)
    (sender : String × String) (rs : List (String × String)) (sz : Nat) :
    (insert_entry db subj sender rs sz).inbox =
      db.inbox ++ [⟨subj.take 2048,
        (get_contact (rs.foldl insertRecipStep ([], [], db)).2.2
          sender.1 sender.2).1.id,
        sz, (rs.foldl insertRecipStep ([], [], db)).1⟩] := by
  have h1 : (insert_entry db subj sender rs sz).inbox =
      (get_contact (rs.foldl insertRecipStep ([], [], db)).2.2
        sender.1 sender.2).2.inbox ++
      [⟨subj.take 2048,
        (get_contact (rs.foldl insertRecipStep ([], [], db)).2.2
          sender.1 sender.2).1.id,
        sz, (rs.foldl insertRecipStep ([], [], db)).1⟩] := rfl
  rw [h1, get_contact_inbox, (foldRecips_db rs ([], [], db)).2.1]

theorem insert_entry_good (db : MailDB) (subj : String) (sender : String × String)
    (rs : List (String × String)) (sz : Nat) (h : GoodDB db) :
    GoodDB (insert_entry db subj sender rs sz) := by
  have hfold : GoodDB (rs.foldl insertRecipStep ([], [], db)).2.2 :=
    (foldRecips_db rs ([], [], db)).2.2 h
  have hgc := get_contact_good _ sender.1 sender.2 hfold
  unfold GoodDB at hgc ⊢
  rw [insert_entry_contacts, insert_entry_nextId]
  exact hgc

/-- C6: contact uniqueness is an invariant of mail persistence.  Starting
from any store satisfying the uniqueness invariant, inserting two mail
events with the same sender (realname, address) pair preserves the
invariant (no two Contact rows ever share a pair), leaves exactly one
Contact row carrying the sender's pair, and makes both inserted `inbox`
rows reference that same Contact id — lookups find-or-create. -/
theorem c6_contact_uniqueness (db : MailDB) (subj1 subj2 : String)
    (sender : String × String) (r1 r2 : List (String × String)) (sz1 sz2 : Nat)
    (hdb : GoodDB db) :
    GoodDB (insert_entry (insert_entry db subj1 sender r1 sz1) subj2 sender r2 sz2) ∧
    ((insert_entry (insert_entry db subj1 sender r1 sz1) subj2 sender r2 sz2).contacts.countP
      (fun c => c.realname == sender.1 && c.email_address == sender.2)) = 1 ∧
    ∃ row1 row2,
      (insert_entry (insert_entry db subj1 sender r1 sz1) subj2 sender r2 sz2).inbox =
        db.inbox ++ [row1, row2] ∧ row1.sender_id = row2.sender_id := by
  have hdb1good : GoodDB (insert_entry db subj1 sender r1 sz1) :=
    insert_entry_good db subj1 sender r1 sz1 hdb
  have hgoodA : GoodDB (r1.foldl insertRecipStep ([], [], db)).2.2 :=
    (foldRecips_db r1 ([], [], db)).2.2 hdb
  have hc1pair := get_contact_fst_pair (r1.foldl insertRecipStep ([], [], db)).2.2
    sender.1 sender.2
  have hc1mem := get_contact_mem (r1.foldl insertRecipStep ([], [], db)).2.2
    sender.1 sender.2
  have hgood2 : GoodDB
      (r2.foldl insertRecipStep ([], [], insert_entry db subj1 sender r1 sz1)).2.2 :=
    (foldRecips_db r2 ([], [], insert_entry db subj1 sender r1 sz1)).2.2 hdb1good
  obtain ⟨ext2, hext2⟩ :=
    (foldRecips_db r2 ([], [], insert_entry db subj1 sender r1 sz1)).1
  have hcAmem2 :
      (get_contact (r1.foldl insertRecipStep ([], [], db)).2.2 sender.1 sender.2).1 ∈
      (r2.foldl insertRecipStep ([], [], insert_entry db subj1 sender r1 sz1)).2.2.contacts := by
    rw [hext2]
    apply List.mem_append_left
    rw [insert_entry_contacts]
    exact hc1mem
  have hstable := get_contact_stable
    (r2.foldl insertRecipStep ([], [], insert_entry db subj1 sender r1 sz1)).2.2
    sender.1 sender.2 hgood2 hcAmem2 hc1pair.1 hc1pair.2
  refine ⟨insert_entry_good _ subj2 sender r2 sz2 hdb1good, ?_, ?_⟩
  · rw [insert_entry_contacts]
    exact get_contact_countP _ sender.1 sender.2 hgood2
  · refine ⟨⟨subj1.take 2048,
        (get_contact (r1.foldl insertRecipStep ([], [], db)).2.2
          sender.1 sender.2).1.id,
        sz1, (r1.foldl insertRecipStep ([], [], db)).1⟩,
      ⟨subj2.take 2048,
        (get_contact
          (r2.foldl insertRecipStep ([], [], insert_entry db subj1 sender r1 sz1)).2.2
          sender.1 sender.2).1.id,
        sz2, (r2.foldl insertRecipStep ([], [], insert_entry db subj1 sender r1 sz1)).1⟩,
      ?_, ?_⟩
    · rw [insert_entry_inbox_parent, insert_entry_inbox_parent, List.append_assoc]
      rfl
    · show (get_contact (r1.foldl insertRecipStep ([], [], db)).2.2
          sender.1 sender.2).1.id =
        (get_contact
          (r2.foldl insertRecipStep ([], [], insert_entry db subj1 sender r1 sz1)).2.2
          sender.1 sender.2).1.id
      rw [hstable]

/-- Witness for C6 at a concrete store and sender. -/
theorem c6_contact_uniqueness_witness :
    GoodDB (insert_entry (insert_entry ⟨[], [], 0⟩ "s1" ("A", "a@x") [] 1)
      "s2" ("A", "a@x") [] 2) ∧
    ((insert_entry (insert_entry ⟨[], [], 0⟩ "s1" ("A", "a@x") [] 1)
        "s2" ("A", "a@x") [] 2).contacts.countP
      (fun c => c.realname == "A" && c.email_address == "a@x")) = 1 ∧
    ∃ row1 row2,
      (insert_entry (insert_entry ⟨[], [], 0⟩ "s1" ("A", "a@x") [] 1)
        "s2" ("A", "a@x") [] 2).inbox = ([] : List EMailRow) ++ [row1, row2] ∧
      row1.sender_id = row2.sender_id :=
  c6_contact_uniqueness ⟨[], [], 0⟩ "s1" "s2" ("A", "a@x") [] [] 1 2
    ⟨List.nodup_nil, List.nodup_nil, fun c hc => absurd hc (List.not_mem_nil c)⟩

theorem dedupKeep_cons (seen : List (String × String)) (a : String × String)
    (rest : List (String × String)) :
    dedupKeep seen (a :: rest) =
      if a ∈ seen then dedupKeep seen rest
      else a :: dedupKeep (a :: seen) rest := rfl

theorem dedupKeep_congr : ∀ (l s1 s2 : List (String × String)),
    (∀ x, x ∈ s1 ↔ x ∈ s2) → dedupKeep s1 l = dedupKeep s2 l := by
  intro l
  induction l with
  | nil => intro s1 s2 _; rfl
  | cons a rest ih =>
    intro s1 s2 hset
    unfold dedupKeep
    by_cases ha : a ∈ s1
    · rw [if_pos ha, if_pos ((hset a).mp ha)]
      exact ih s1 s2 hset
    · rw [if_neg ha, if_neg (fun h => ha ((hset a).mpr h))]
      rw [ih (a :: s1) (a :: s2) (by intro x; simp [hset x])]

theorem foldRecips_tocc : ∀ (rs : List (String × String)) (db : MailDB)
    (acc : List Contact) (ids : List Nat),
    GoodDB db → (∀ c ∈ acc, c ∈ db.contacts) →
    (∀ i, i ∈ ids ↔ ∃ c ∈ acc, c.id = i) →
    (rs.foldl insertRecipStep (acc, ids, db)).1.map Contact.pair =
      acc.map Contact.pair ++ dedupKeep (acc.map Contact.pair) rs := by
  intro rs
  induction rs with
  | nil =>
    intro db acc ids _ _ _
    simp [dedupKeep]
  | cons r rest ih =>
    intro db acc ids hg hsub hiff
    rw [List.foldl_cons]
    have hcp := get_contact_fst_pair db r.1 r.2
    have hpairR : Contact.pair (get_contact db r.1 r.2).1 = r := by
      rw [Contact.pair, hcp.1, hcp.2]
    by_cases hmem : r ∈ acc.map Contact.pair
    · obtain ⟨c0, hc0a, hc0p⟩ := List.mem_map.mp hmem
      have hc0r : c0.realname = r.1 := congrArg Prod.fst hc0p
      have hc0e : c0.email_address = r.2 := congrArg Prod.snd hc0p
      have hst := get_contact_stable db r.1 r.2 hg (hsub c0 hc0a) hc0r hc0e
      have hid : c0.id ∈ ids := (hiff c0.id).mpr ⟨c0, hc0a, rfl⟩
      have hstep : insertRecipStep (acc, ids, db) r = (acc, ids, db) := by
        unfold insertRecipStep
        rw [hst]
        simp [hid]
      rw [hstep, ih db acc ids hg hsub hiff]
      rw [dedupKeep_cons, if_pos hmem]
    · have hcmem := get_contact_mem db r.1 r.2
      obtain ⟨ext, hext⟩ := get_contact_extend db r.1 r.2
      have hg2 : GoodDB (get_contact db r.1 r.2).2 := get_contact_good db r.1 r.2 hg
      have hidnot : (get_contact db r.1 r.2).1.id ∉ ids := by
        intro hin
        obtain ⟨c1, hc1a, hc1id⟩ := (hiff _).mp hin
        have hc1db2 : c1 ∈ (get_contact db r.1 r.2).2.contacts := by
          rw [hext]
          exact List.mem_append_left _ (hsub c1 hc1a)
        have hceq : c1 = (get_contact db r.1 r.2).1 :=
          List.inj_on_of_nodup_map hg2.2.1 hc1db2 hcmem hc1id
        apply hmem
        have : Contact.pair c1 = r := by rw [hceq, hpairR]
        exact this ▸ List.mem_map_of_mem Contact.pair hc1a
      have hstep : insertRecipStep (acc, ids, db) r =
          (acc ++ [(get_contact db r.1 r.2).1],
           (get_contact db r.1 r.2).1.id :: ids, (get_contact db r.1 r.2).2) := by
        unfold insertRecipStep
        simp [hidnot]
      rw [hstep]
      have hsub2 : ∀ c ∈ acc ++ [(get_contact db r.1 r.2).1],
          c ∈ (get_contact db r.1 r.2).2.contacts := by
        intro c hc
        rcases List.mem_append.mp hc with h | h
        · rw [hext]
          exact List.mem_append_left _ (hsub c h)
        · simp only [List.mem_singleton] at h
          rw [h]
          exact hcmem
      have hiff2 : ∀ i, i ∈ (get_contact db r.1 r.2).1.id :: ids ↔
          ∃ c ∈ acc ++ [(get_contact db r.1 r.2).1], c.id = i := by
        intro i
        simp only [List.mem_cons, List.mem_append, List.not_mem_nil, or_false,
          hiff i]
        constructor
        · rintro (h | ⟨c, hc, hcid⟩)
          · exact ⟨(get_contact db r.1 r.2).1, Or.inr rfl, h.symm⟩
          · exact ⟨c, Or.inl hc, hcid⟩
        · rintro ⟨c, h | h, hcid⟩
          · exact Or.inr ⟨c, h, hcid⟩
          · subst h
            exact Or.inl hcid.symm
      rw [ih (get_contact db r.1 r.2).2 (acc ++ [(get_contact db r.1 r.2).1])
        ((get_contact db r.1 r.2).1.id :: ids) hg2 hsub2 hiff2]
      rw [List.map_append]
      have hmapone : [(get_contact db r.1 r.2).1].map Contact.pair = [r] := by
        simp [hpairR]
      rw [hmapone]
      rw [dedupKeep_cons, if_neg hmem, List.append_assoc]
      have hcongr : dedupKeep (acc.map Contact.pair ++ [r]) rest =
          dedupKeep (r :: acc.map Contact.pair) rest := by
        apply dedupKeep_congr
        intro x
        simp [or_comm]
      rw [hcongr]
      rfl

/-- C10: for every recipient sequence handed to mail insertion, the stored
To/CC list of the created `inbox` row contains the Contact for each
distinct (realname, address) pair exactly once, in the order of each
pair's first occurrence in the input sequence (dedup is by contact id,
which under the uniqueness invariant coincides with dedup by pair). -/
theorem c10_tocc_first_occurrences (db : MailDB) (subj : String)
    (sender : String × String) (recipients : List (String × String)) (sz : Nat)
    (hdb : GoodDB db) :
    ∃ row, (insert_entry db subj sender recipients sz).inbox = db.inbox ++ [row] ∧
      row.tocc.map Contact.pair = dedupKeep [] recipients := by
  refine ⟨_, insert_entry_inbox_parent db subj sender recipients sz, ?_⟩
  show (recipients.foldl insertRecipStep ([], [], db)).1.map Contact.pair =
    dedupKeep [] recipients
  have h := foldRecips_tocc recipients db [] [] hdb
    (fun c hc => absurd hc (List.not_mem_nil c))
    (fun i => by simp)
  simpa using h

/-- Witness for C10 at a concrete store and a recipient list with a
repeated pair. -/
theorem c10_tocc_first_occurrences_witness :
    ∃ row, (insert_entry ⟨[], [], 0⟩ "s" ("S", "s@x")
        [("A", "a@x"), ("B", "b@x"), ("A", "a@x")] 7).inbox =
      ([] : List EMailRow) ++ [row] ∧
      row.tocc.map Contact.pair =
        dedupKeep [] [("A", "a@x"), ("B", "b@x"), ("A", "a@x")] :=
  c10_tocc_first_occurrences ⟨[], [], 0⟩ "s" ("S", "s@x")
    [("A", "a@x"), ("B", "b@x"), ("A", "a@x")] 7
    ⟨List.nodup_nil, List.nodup_nil, fun c hc => absurd hc (List.not_mem_nil c)⟩

end Logsdb
